import Mathlib

/-!
Shallow embedding of the signaling and room-session core of the
quic-nodejs-rtc repository (src/server.js, with the crypto primitives of
src/unnamed/part_008 = crypto-utils.js).  Randomness of the crypto layer is
modelled by an injective entropy counter threaded through the server state:
each call to a generator returns the current counter value and advances it,
which captures the freshness and uniqueness of crypto.randomBytes and
crypto.generateKeyPairSync outputs.  All outbound socket emissions are
recorded in an append-only log of (recipient socket id, message) pairs.
-/

namespace QuicRtc

/-- Client-supplied user data attached to a join request; the server spreads
it into the participant record (`...userData` in Room.addParticipant). -/
structure UserData where
  username : Option String
  isCreator : Option Bool
deriving DecidableEq, Repr

/-- One participant record inside a Room, as built by Room.addParticipant:
id, spread userData fields, joinedAt stamp, and a freshly minted key pair. -/
structure Participant where
  id : String
  username : Option String
  isCreator : Option Bool
  joinedAt : Nat
  pubKey : Nat
  privKey : Nat
deriving DecidableEq, Repr

/-- The Room class of server.js: id, insertion-ordered participant map,
creation stamp, and room-scoped encryption key and salt minted once in the
constructor. -/
structure Room where
  id : String
  participants : List (String × Participant)
  createdAt : Nat
  encryptionKey : Nat
  salt : Nat
deriving DecidableEq, Repr

/-- The per-socket entry of the users map: `users.set(socket.id, { roomId, userData })`. -/
structure UserRec where
  roomId : String
  userData : UserData
deriving DecidableEq, Repr

/-- The public-facing participant view produced by Room.getParticipants:
id, username, joinedAt and public key only (never the private key). -/
structure PubParticipant where
  id : String
  username : Option String
  joinedAt : Nat
  publicKey : Nat
deriving DecidableEq, Repr

/-- Outbound server-to-client socket messages, one constructor per emit in
server.js.  Only roomKeysMsg carries private key material, mirroring the code
where privateKey is included solely in the room-keys emit. -/
inductive SMsg where
  | roomKeysMsg (roomKey salt pubKey privKey : Nat)
  | userJoinedMsg (userId : String) (userData : UserData)
  | existingParticipantsMsg (ps : List PubParticipant)
  | errorMsg (message : String)
  | offerMsg (fromUserId : String) (offer : Nat)
  | answerMsg (fromUserId : String) (answer : Nat)
  | iceCandidateMsg (fromUserId : String) (candidate : Nat)
  | secureOfferMsg (senderId : String) (enc iv tag : Nat)
  | secureAnswerMsg (senderId : String) (enc iv tag : Nat)
  | secureIceMsg (senderId : String) (enc iv tag : Nat)
  | chatMsg (senderId : String) (senderName : Option String) (enc iv tag timestamp : Nat)
  | mediaStateMsg (userId : String) (audio video : Option Bool)
  | screenShareStartMsg (userId : String)
  | screenShareStopMsg (userId : String)
  | userLeftMsg (userId : String)
deriving DecidableEq, Repr

/-- Lookup in a JS Map modelled as an insertion-ordered association list. -/
def mapGet {α : Type} (m : List (String × α)) (k : String) : Option α :=
  match m with
  | [] => none
  | (k1, v) :: rest => if k1 = k then some v else mapGet rest k

/-- JS Map.set: replace in place when the key is present (preserving
insertion order), otherwise append at the end. -/
def mapSet {α : Type} (m : List (String × α)) (k : String) (v : α) : List (String × α) :=
  match m with
  | [] => [(k, v)]
  | (k1, v1) :: rest => if k1 = k then (k, v) :: rest else (k1, v1) :: mapSet rest k v

/-- JS Map.delete: drop the entry with the given key. -/
def mapDelete {α : Type} (m : List (String × α)) (k : String) : List (String × α) :=
  m.filter (fun p => !(p.1 = k))

/-- cryptoUtils.generateKey: a fresh 256-bit random value, modelled as the
next value of the entropy counter; returns the key and the advanced counter. -/
def generateKey (entropy : Nat) : Nat × Nat := (entropy, entropy + 1)

/-- cryptoUtils.generateSalt: a fresh random salt. -/
def generateSalt (entropy : Nat) : Nat × Nat := (entropy, entropy + 1)

/-- cryptoUtils.generateKeyPair: a fresh EC key pair (public, private),
modelled as two fresh entropy draws. -/
def generateKeyPair (entropy : Nat) : (Nat × Nat) × Nat :=
  ((entropy, entropy + 1), entropy + 2)

/-- The Room constructor: empty participant map, creation stamp, and the
encryption key and salt minted at construction time. -/
def Room.create (id : String) (now entropy : Nat) : Room × Nat :=
  let k := generateKey entropy
  let sl := generateSalt k.2
  ({ id := id, participants := [], createdAt := now,
     encryptionKey := k.1, salt := sl.1 }, sl.2)

/-- Room.addParticipant: stores id, spread userData, joinedAt and a freshly
generated key pair under the socket id. -/
def Room.addParticipant (room : Room) (socketId : String) (ud : UserData)
    (now entropy : Nat) : Room × Nat :=
  let kp := generateKeyPair entropy
  let rec1 : Participant :=
    { id := socketId, username := ud.username, isCreator := ud.isCreator,
      joinedAt := now, pubKey := kp.1.1, privKey := kp.1.2 }
  ({ room with participants := mapSet room.participants socketId rec1 }, kp.2)

/-- Room.removeParticipant. -/
def Room.removeParticipant (room : Room) (socketId : String) : Room :=
  { room with participants := mapDelete room.participants socketId }

/-- Room.getParticipants: public projection of each record (id, username,
joinedAt, publicKey), in insertion order. -/
def Room.getParticipants (room : Room) : List PubParticipant :=
  room.participants.map (fun p =>
    { id := p.2.id, username := p.2.username,
      joinedAt := p.2.joinedAt, publicKey := p.2.pubKey })

/-- Room.getParticipantKeyPair. -/
def Room.getParticipantKeyPair (room : Room) (socketId : String) : Option (Nat × Nat) :=
  (mapGet room.participants socketId).map (fun p => (p.pubKey, p.privKey))

/-- Room.isEmpty. -/
def Room.isEmpty (room : Room) : Bool :=
  room.participants.isEmpty

/-- Room.getRoomKeys: the room encryption key (hex encoding elided) and salt. -/
def Room.getRoomKeys (room : Room) : Nat × Nat :=
  (room.encryptionKey, room.salt)

/-- The whole server state: the rooms and users maps, the socket.io
connection registry (each connected socket with the socket.io rooms it has
joined, its own id among them), the entropy counter, a clock, and the
append-only log of outbound emissions. -/
structure ServerState where
  rooms : List (String × Room)
  users : List (String × UserRec)
  conns : List (String × List String)
  entropy : Nat
  now : Nat
  outLog : List (String × SMsg)
deriving DecidableEq, Repr

def initState : ServerState :=
  { rooms := [], users := [], conns := [], entropy := 0, now := 0, outLog := [] }

/-- socket.to(roomName).emit semantics: every connected socket that is a
member of the socket.io room `roomName`, excluding the sender. -/
def broadcastTo (conns : List (String × List String)) (roomName sender : String) : List String :=
  (conns.filter (fun c => c.1 ≠ sender ∧ roomName ∈ c.2)).map Prod.fst

/-- socket.join(roomName) for a connected socket (no-op for unknown ids). -/
def socketJoin (conns : List (String × List String)) (sid roomName : String) :
    List (String × List String) :=
  match mapGet conns sid with
  | none => conns
  | some rs => if roomName ∈ rs then conns else mapSet conns sid (rs ++ [roomName])

/-- Client-to-server events, one constructor per handler registered in
server.js plus the two room-creating HTTP endpoints.  The remote-control
events exist in the client protocol (src/unnamed/part_003) but have no
server-side handler. -/
inductive Ev where
  | connect (sid : String)
  | joinRoom (sid : String) (roomId : Option String) (userData : UserData)
  | offer (sid targetUserId : String) (payload : Nat)
  | answer (sid targetUserId : String) (payload : Nat)
  | iceCandidate (sid targetUserId : String) (payload : Nat)
  | secureOffer (sid targetId : String) (enc iv tag : Nat)
  | secureAnswer (sid targetId : String) (enc iv tag : Nat)
  | secureIceCandidate (sid targetId : String) (enc iv tag : Nat)
  | chatMessage (sid : String) (enc iv tag : Nat) (timestamp : Option Nat)
  | mediaStateChange (sid : String) (audio video : Option Bool)
  | screenShareStart (sid : String)
  | screenShareStop (sid : String)
  | remoteControlVideo (sid targetUserId : String) (enable : Bool)
  | remoteControlAudio (sid targetUserId : String) (enable : Bool)
  | disconnect (sid : String)
  | createRoomApi
  | createRoomVueApi
deriving DecidableEq, Repr

/-- The JS falsiness check `if (!roomId)` of the join-room handler: missing
or empty-string room ids are falsy. -/
def roomIdFalsy : Option String → Bool
  | none => true
  | some r => r = ""

/-- Append a batch of emissions of the same message to distinct targets. -/
def emitRelay (s : ServerState) (targets : List String) (m : SMsg) : ServerState :=
  { s with outLog := s.outLog ++ targets.map (fun r => (r, m)) }

/-- The lazy room creation of the join handler: reuse the tracked Room when
present, otherwise construct one (minting key and salt). -/
def ensureRoom (rooms : List (String × Room)) (rid : String) (now entropy : Nat) :
    List (String × Room) × Nat :=
  match mapGet rooms rid with
  | some _ => (rooms, entropy)
  | none =>
    let cr := Room.create rid now entropy
    (mapSet rooms rid cr.1, cr.2)

/-- The body of the join-room handler for a non-falsy room id: get-or-create
the room, add the participant (minting its key pair), record the user, join
the socket.io room, then emit room-keys to the joiner, user-joined to the
others, and the filtered existing-participants list to the joiner. -/
def handleJoinValid (s : ServerState) (sid rid : String) (ud : UserData) : ServerState :=
  let er := ensureRoom s.rooms rid s.now s.entropy
  match mapGet er.1 rid with
  | none => s
  | some room =>
    let ap := Room.addParticipant room sid ud s.now er.2
    let conns1 := socketJoin s.conns sid rid
    match Room.getParticipantKeyPair ap.1 sid with
    | none => s
    | some kp =>
      { rooms := mapSet er.1 rid ap.1,
        users := mapSet s.users sid { roomId := rid, userData := ud },
        conns := conns1,
        entropy := ap.2,
        now := s.now,
        outLog := s.outLog ++
          ([(sid, SMsg.roomKeysMsg (Room.getRoomKeys ap.1).1 (Room.getRoomKeys ap.1).2 kp.1 kp.2)]
            ++ (broadcastTo conns1 rid sid).map (fun r => (r, SMsg.userJoinedMsg sid ud))
            ++ [(sid, SMsg.existingParticipantsMsg
                  ((Room.getParticipants ap.1).filter (fun p => p.id ≠ sid)))]) }

/-- The join-room handler: error on a falsy room id, else the valid path. -/
def handleJoin (s : ServerState) (sid : String) (roomId : Option String) (ud : UserData) :
    ServerState :=
  if roomIdFalsy roomId then
    { s with outLog := s.outLog ++ [(sid, SMsg.errorMsg "Room ID is required")] }
  else
    match roomId with
    | none => s
    | some rid => handleJoinValid s sid rid ud

/-- A new socket connection: registered with its own singleton socket.io room. -/
def handleConnect (s : ServerState) (sid : String) : ServerState :=
  match mapGet s.conns sid with
  | some _ => s
  | none => { s with conns := s.conns ++ [(sid, [sid])] }

/-- The JS idiom `timestamp || serverTime` (0 is falsy). -/
def jsOrNow (t : Option Nat) (now : Nat) : Nat :=
  match t with
  | none => now
  | some v => if v = 0 then now else v

/-- The encrypted-chat-message handler: relayed to the room only when the
sender is a known user of a tracked room. -/
def handleChat (s : ServerState) (sid : String) (enc iv tag : Nat) (ts : Option Nat) :
    ServerState :=
  match mapGet s.users sid with
  | none => s
  | some u =>
    match mapGet s.rooms u.roomId with
    | none => s
    | some _ =>
      emitRelay s (broadcastTo s.conns u.roomId sid)
        (SMsg.chatMsg sid u.userData.username enc iv tag (jsOrNow ts s.now))

/-- The media-state-change handler: broadcast to the room of the sender when
the sender is in the users map. -/
def handleMediaState (s : ServerState) (sid : String) (audio video : Option Bool) :
    ServerState :=
  match mapGet s.users sid with
  | none => s
  | some u => emitRelay s (broadcastTo s.conns u.roomId sid) (SMsg.mediaStateMsg sid audio video)

/-- The screen-share-start handler. -/
def handleScreenShareStart (s : ServerState) (sid : String) : ServerState :=
  match mapGet s.users sid with
  | none => s
  | some u => emitRelay s (broadcastTo s.conns u.roomId sid) (SMsg.screenShareStartMsg sid)

/-- The screen-share-stop handler. -/
def handleScreenShareStop (s : ServerState) (sid : String) : ServerState :=
  match mapGet s.users sid with
  | none => s
  | some u => emitRelay s (broadcastTo s.conns u.roomId sid) (SMsg.screenShareStopMsg sid)

/-- The disconnect handler: remove the participant from the room recorded in
the users map, broadcast user-left, delete the room if it became empty, then
drop the users entry and the connection. -/
def handleDisconnect (s : ServerState) (sid : String) : ServerState :=
  let re :=
    match mapGet s.users sid with
    | none => (s.rooms, ([] : List (String × SMsg)))
    | some u =>
      match mapGet s.rooms u.roomId with
      | none => (s.rooms, [])
      | some room =>
        let room1 := Room.removeParticipant room sid
        let emits := (broadcastTo s.conns u.roomId sid).map
          (fun r => (r, SMsg.userLeftMsg sid))
        if Room.isEmpty room1 then (mapDelete s.rooms u.roomId, emits)
        else (mapSet s.rooms u.roomId room1, emits)
  { s with rooms := re.1,
           users := mapDelete s.users sid,
           conns := mapDelete s.conns sid,
           outLog := s.outLog ++ re.2 }

/-- uuidv4, modelled as a fresh draw from the entropy counter rendered as a
string. -/
def uuidv4 (entropy : Nat) : String × Nat :=
  ("uuid-" ++ toString entropy, entropy + 1)

/-- POST /api/rooms: mints a fresh room id and inserts a brand-new (empty)
Room into the registry. -/
def handleCreateRoomApi (s : ServerState) : ServerState :=
  let uid := uuidv4 s.entropy
  let cr := Room.create uid.1 s.now uid.2
  { s with rooms := mapSet s.rooms uid.1 cr.1, entropy := cr.2 }

/-- Dispatch of one inbound event to its handler; events with no registered
server handler (remote-control-video / remote-control-audio) leave the state
unchanged. -/
def handle (s : ServerState) (e : Ev) : ServerState :=
  match e with
  | .connect sid => handleConnect s sid
  | .joinRoom sid rid ud => handleJoin s sid rid ud
  | .offer sid t p => emitRelay s (broadcastTo s.conns t sid) (SMsg.offerMsg sid p)
  | .answer sid t p => emitRelay s (broadcastTo s.conns t sid) (SMsg.answerMsg sid p)
  | .iceCandidate sid t p => emitRelay s (broadcastTo s.conns t sid) (SMsg.iceCandidateMsg sid p)
  | .secureOffer sid t a b c => emitRelay s (broadcastTo s.conns t sid) (SMsg.secureOfferMsg sid a b c)
  | .secureAnswer sid t a b c => emitRelay s (broadcastTo s.conns t sid) (SMsg.secureAnswerMsg sid a b c)
  | .secureIceCandidate sid t a b c => emitRelay s (broadcastTo s.conns t sid) (SMsg.secureIceMsg sid a b c)
  | .chatMessage sid a b c ts => handleChat s sid a b c ts
  | .mediaStateChange sid au vi => handleMediaState s sid au vi
  | .screenShareStart sid => handleScreenShareStart s sid
  | .screenShareStop sid => handleScreenShareStop s sid
  | .remoteControlVideo _ _ _ => s
  | .remoteControlAudio _ _ _ => s
  | .disconnect sid => handleDisconnect s sid
  | .createRoomApi => handleCreateRoomApi s
  | .createRoomVueApi => handleCreateRoomApi s

/-- One processed event, with the clock advanced. -/
def step (s : ServerState) (e : Ev) : ServerState :=
  let s1 := handle s e
  { s1 with now := s1.now + 1 }

/-- Run a sequence of events from a given state. -/
def runFrom (s : ServerState) (evs : List Ev) : ServerState :=
  evs.foldl step s

/-- Run a sequence of events from the initial (fresh-process) state. -/
def run (evs : List Ev) : ServerState :=
  runFrom initState evs

/-- The keys of a map, in insertion order. -/
def mapKeys {α : Type} (m : List (String × α)) : List String := m.map Prod.fst

/-- The private key carried by a message, when any.  The only message
constructor carrying a private key is roomKeysMsg, exactly as in server.js
where privateKey is emitted only inside room-keys. -/
def privOf : SMsg → Option Nat
  | SMsg.roomKeysMsg _ _ _ priv => some priv
  | _ => none

/-- All private keys that occur in a log of outbound emissions. -/
def logPrivs (L : List (String × SMsg)) : List Nat :=
  L.filterMap (fun e => privOf e.2)

/-- The result of the non-falsy join-room path, parameterised by the room
the handler operates on (the tracked one, or the freshly constructed one)
and the entropy counter at the point the participant key pair is minted. -/
def joinResult (s : ServerState) (sid rid : String) (ud : UserData) (room : Room)
    (e0 : Nat) : ServerState :=
  { rooms := mapSet s.rooms rid (Room.addParticipant room sid ud s.now e0).1,
    users := mapSet s.users sid { roomId := rid, userData := ud },
    conns := socketJoin s.conns sid rid,
    entropy := e0 + 2,
    now := s.now,
    outLog := s.outLog ++
      ([(sid, SMsg.roomKeysMsg room.encryptionKey room.salt e0 (e0 + 1))]
        ++ (broadcastTo (socketJoin s.conns sid rid) rid sid).map
            (fun r => (r, SMsg.userJoinedMsg sid ud))
        ++ [(sid, SMsg.existingParticipantsMsg
              (((Room.addParticipant room sid ud s.now e0).1.getParticipants).filter
                (fun p => p.id ≠ sid)))]) }

/-- The invariants of the reachable server states that the claims rest on:
well-formed (duplicate-free) maps, participant records keyed by their own
id, every minted key below the entropy counter, pairwise-distinct private
keys in the outbound log, and every current participant of a tracked room
having received that room's encryption key and salt together with its own
key pair in a room-keys message. -/
structure Inv (s : ServerState) : Prop where
  roomsNodup : (mapKeys s.rooms).Nodup
  usersNodup : (mapKeys s.users).Nodup
  connsNodup : (mapKeys s.conns).Nodup
  partNodup : ∀ rid room, (rid, room) ∈ s.rooms → (mapKeys room.participants).Nodup
  partId : ∀ rid room, (rid, room) ∈ s.rooms → ∀ pid p, (pid, p) ∈ room.participants →
    p.id = pid
  roomKeyLt : ∀ rid room, (rid, room) ∈ s.rooms → room.encryptionKey < s.entropy
  privLt : ∀ p ∈ logPrivs s.outLog, p < s.entropy
  privNodup : (logPrivs s.outLog).Nodup
  delivered : ∀ rid room, (rid, room) ∈ s.rooms → ∀ pid p, (pid, p) ∈ room.participants →
    (pid, SMsg.roomKeysMsg room.encryptionKey room.salt p.pubKey p.privKey) ∈ s.outLog

/-- The registry part of the claimed room-existence invariant: every tracked
room has at least one participant. -/
def RoomsNonempty (s : ServerState) : Prop :=
  ∀ rid room, (rid, room) ∈ s.rooms → room.participants ≠ []

/-- Events that are not one of the room-creating HTTP endpoints. -/
def nonHttp (e : Ev) : Prop :=
  e ≠ Ev.createRoomApi ∧ e ≠ Ev.createRoomVueApi

instance (e : Ev) : Decidable (nonHttp e) := by
  unfold nonHttp
  infer_instance

/-! Helper lemmas about the association-list model of JS Maps. -/

theorem mapKeys_nil {α : Type} : mapKeys ([] : List (String × α)) = [] := rfl

theorem mapKeys_cons {α : Type} (hd : String × α) (tl : List (String × α)) :
    mapKeys (hd :: tl) = hd.1 :: mapKeys tl := rfl

theorem mapKeys_append {α : Type} (l1 l2 : List (String × α)) :
    mapKeys (l1 ++ l2) = mapKeys l1 ++ mapKeys l2 := List.map_append _ l1 l2

theorem mem_keys_of_mem {α : Type} {m : List (String × α)} {k : String} {v : α}
    (h : (k, v) ∈ m) : k ∈ mapKeys m := List.mem_map_of_mem Prod.fst h

theorem mapGet_cons_eq {α : Type} (k : String) (v0 : α) (tl : List (String × α)) :
    mapGet ((k, v0) :: tl) k = some v0 := by simp [mapGet]

theorem mapGet_cons_ne {α : Type} {k0 k : String} (h : k0 ≠ k) (v0 : α)
    (tl : List (String × α)) : mapGet ((k0, v0) :: tl) k = mapGet tl k := by
  simp [mapGet, h]

theorem mapSet_cons_eq {α : Type} (k : String) (v0 : α) (tl : List (String × α)) (v : α) :
    mapSet ((k, v0) :: tl) k v = (k, v) :: tl := by simp [mapSet]

theorem mapSet_cons_ne {α : Type} {k0 k : String} (h : k0 ≠ k) (v0 : α)
    (tl : List (String × α)) (v : α) :
    mapSet ((k0, v0) :: tl) k v = (k0, v0) :: mapSet tl k v := by simp [mapSet, h]

theorem mapGet_mapSet_self {α : Type} (m : List (String × α)) (k : String) (v : α) :
    mapGet (mapSet m k v) k = some v := by
  induction m with
  | nil => simp [mapSet, mapGet]
  | cons hd tl ih =>
    obtain ⟨k0, v0⟩ := hd
    by_cases hk : k0 = k
    · subst hk
      rw [mapSet_cons_eq, mapGet_cons_eq]
    · rw [mapSet_cons_ne hk, mapGet_cons_ne hk]
      exact ih

theorem mapGet_eq_some_mem {α : Type} {m : List (String × α)} {k : String} {v : α}
    (h : mapGet m k = some v) : (k, v) ∈ m := by
  induction m with
  | nil => simp [mapGet] at h
  | cons hd tl ih =>
    obtain ⟨k0, v0⟩ := hd
    by_cases hk : k0 = k
    · subst hk
      rw [mapGet_cons_eq] at h
      obtain rfl : v0 = v := by injection h
      exact List.mem_cons_self _ _
    · rw [mapGet_cons_ne hk] at h
      exact List.mem_cons_of_mem _ (ih h)

theorem mapGet_eq_none_not_mem {α : Type} {m : List (String × α)} {k : String}
    (h : mapGet m k = none) : k ∉ mapKeys m := by
  induction m with
  | nil => simp [mapKeys_nil]
  | cons hd tl ih =>
    obtain ⟨k0, v0⟩ := hd
    by_cases hk : k0 = k
    · subst hk
      rw [mapGet_cons_eq] at h
      exact absurd h (by simp)
    · rw [mapGet_cons_ne hk] at h
      rw [mapKeys_cons, List.mem_cons]
      rintro (rfl | hmem)
      · exact hk rfl
      · exact ih h hmem

theorem keys_mapSet_mem {α : Type} {m : List (String × α)} {k a : String} {v : α}
    (h : a ∈ mapKeys (mapSet m k v)) : a ∈ mapKeys m ∨ a = k := by
  induction m with
  | nil =>
    rw [show mapSet ([] : List (String × α)) k v = [(k, v)] from rfl] at h
    rw [mapKeys_cons, mapKeys_nil] at h
    exact Or.inr (by simpa using h)
  | cons hd tl ih =>
    obtain ⟨k0, v0⟩ := hd
    by_cases hk : k0 = k
    · subst hk
      rw [mapSet_cons_eq, mapKeys_cons] at h
      rcases List.mem_cons.1 h with rfl | h1
      · exact Or.inr rfl
      · exact Or.inl (by rw [mapKeys_cons]; exact List.mem_cons_of_mem _ h1)
    · rw [mapSet_cons_ne hk, mapKeys_cons] at h
      rcases List.mem_cons.1 h with rfl | h1
      · exact Or.inl (by rw [mapKeys_cons]; exact List.mem_cons_self _ _)
      · rcases ih h1 with h2 | h2
        · exact Or.inl (by rw [mapKeys_cons]; exact List.mem_cons_of_mem _ h2)
        · exact Or.inr h2

theorem nodup_keys_mapSet {α : Type} {m : List (String × α)} (k : String) (v : α)
    (h : (mapKeys m).Nodup) : (mapKeys (mapSet m k v)).Nodup := by
  induction m with
  | nil => simp [mapSet, mapKeys]
  | cons hd tl ih =>
    obtain ⟨k0, v0⟩ := hd
    rw [mapKeys_cons, List.nodup_cons] at h
    by_cases hk : k0 = k
    · subst hk
      rw [mapSet_cons_eq, mapKeys_cons, List.nodup_cons]
      exact ⟨h.1, h.2⟩
    · rw [mapSet_cons_ne hk, mapKeys_cons, List.nodup_cons]
      refine ⟨fun hc => ?_, ih h.2⟩
      rcases keys_mapSet_mem hc with h1 | h1
      · exact h.1 h1
      · exact hk h1

theorem mem_mapSet {α : Type} {m : List (String × α)} {k k1 : String} {v v1 : α}
    (hnd : (mapKeys m).Nodup) (h : (k1, v1) ∈ mapSet m k v) :
    (k1 = k ∧ v1 = v) ∨ ((k1, v1) ∈ m ∧ k1 ≠ k) := by
  induction m with
  | nil =>
    rw [show mapSet ([] : List (String × α)) k v = [(k, v)] from rfl] at h
    rcases List.mem_cons.1 h with h1 | h1
    · exact Or.inl (by injection h1 with ha hb; exact ⟨ha, hb⟩)
    · exact absurd h1 (List.not_mem_nil _)
  | cons hd tl ih =>
    obtain ⟨k0, v0⟩ := hd
    rw [mapKeys_cons, List.nodup_cons] at hnd
    by_cases hk : k0 = k
    · subst hk
      rw [mapSet_cons_eq] at h
      rcases List.mem_cons.1 h with h1 | h1
      · exact Or.inl (by injection h1 with ha hb; exact ⟨ha, hb⟩)
      · refine Or.inr ⟨List.mem_cons_of_mem _ h1, fun hc => ?_⟩
        subst hc
        exact hnd.1 (mem_keys_of_mem h1)
    · rw [mapSet_cons_ne hk] at h
      rcases List.mem_cons.1 h with h1 | h1
      · obtain ⟨rfl, rfl⟩ : k1 = k0 ∧ v1 = v0 := by injection h1 with ha hb; exact ⟨ha, hb⟩
        exact Or.inr ⟨List.mem_cons_self _ _, fun hc => hk hc⟩
      · rcases ih hnd.2 h1 with h2 | h2
        · exact Or.inl h2
        · exact Or.inr ⟨List.mem_cons_of_mem _ h2.1, h2.2⟩

theorem mapSet_mapSet_self {α : Type} (m : List (String × α)) (k : String) (v w : α) :
    mapSet (mapSet m k v) k w = mapSet m k w := by
  induction m with
  | nil => simp [mapSet]
  | cons hd tl ih =>
    obtain ⟨k0, v0⟩ := hd
    by_cases hk : k0 = k
    · subst hk
      rw [mapSet_cons_eq, mapSet_cons_eq, mapSet_cons_eq]
    · rw [mapSet_cons_ne hk, mapSet_cons_ne hk, mapSet_cons_ne hk, ih]

theorem mem_mapDelete {α : Type} {m : List (String × α)} {k : String} {x : String × α}
    (h : x ∈ mapDelete m k) : x ∈ m :=
  List.mem_of_mem_filter h

theorem nodup_keys_mapDelete {α : Type} {m : List (String × α)} (k : String)
    (h : (mapKeys m).Nodup) : (mapKeys (mapDelete m k)).Nodup :=
  h.sublist ((List.filter_sublist m).map Prod.fst)

theorem mapGet_mapDelete_self {α : Type} (m : List (String × α)) (k : String) :
    mapGet (mapDelete m k) k = none := by
  induction m with
  | nil => simp [mapDelete, mapGet]
  | cons hd tl ih =>
    obtain ⟨k0, v0⟩ := hd
    by_cases hk : k0 = k
    · subst hk
      simpa [mapDelete] using ih
    · rw [show mapDelete ((k0, v0) :: tl) k = (k0, v0) :: mapDelete tl k from by
        simp [mapDelete, hk]]
      rw [mapGet_cons_ne hk]
      exact ih

theorem mapSet_ne_nil {α : Type} (m : List (String × α)) (k : String) (v : α) :
    mapSet m k v ≠ [] := by
  cases m with
  | nil => simp [mapSet]
  | cons hd tl =>
    obtain ⟨k0, v0⟩ := hd
    by_cases hk : k0 = k
    · subst hk
      rw [mapSet_cons_eq]
      simp
    · rw [mapSet_cons_ne hk]
      simp

/-! Lemmas tracking the private keys occurring in outbound messages. -/

theorem logPrivs_append (L M : List (String × SMsg)) :
    logPrivs (L ++ M) = logPrivs L ++ logPrivs M :=
  List.filterMap_append L M _

theorem logPrivs_map_none (rs : List String) (m : SMsg) (h : privOf m = none) :
    logPrivs (rs.map (fun r => (r, m))) = [] := by
  induction rs with
  | nil => rfl
  | cons hd tl ih =>
    rw [List.map_cons, show logPrivs ((hd, m) :: tl.map (fun r => (r, m))) =
      logPrivs (tl.map (fun r => (r, m))) from by simp [logPrivs, List.filterMap_cons, h]]
    exact ih

theorem mem_logPrivs {L : List (String × SMsg)} {x : String} {a b c p : Nat}
    (h : (x, SMsg.roomKeysMsg a b c p) ∈ L) : p ∈ logPrivs L :=
  List.mem_filterMap.2 ⟨(x, SMsg.roomKeysMsg a b c p), h, rfl⟩

/-- In a log whose private keys are pairwise distinct, a private key value
identifies the recipient of the message that carried it. -/
theorem priv_unique {L : List (String × SMsg)} (hnd : (logPrivs L).Nodup)
    {x y : String} {a b c a1 b1 c1 p : Nat}
    (hx : (x, SMsg.roomKeysMsg a b c p) ∈ L)
    (hy : (y, SMsg.roomKeysMsg a1 b1 c1 p) ∈ L) : x = y := by
  induction L with
  | nil => exact absurd hx (List.not_mem_nil _)
  | cons hd tl ih =>
    rcases List.mem_cons.1 hx with h1 | h1
    · rcases List.mem_cons.1 hy with h2 | h2
      · rw [← h1] at h2
        injection h2 with hxy _
        exact hxy.symm
      · subst h1
        rw [show logPrivs ((x, SMsg.roomKeysMsg a b c p) :: tl) = p :: logPrivs tl from by
          simp [logPrivs, List.filterMap_cons, privOf]] at hnd
        exact absurd (mem_logPrivs h2) (List.nodup_cons.1 hnd).1
    · rcases List.mem_cons.1 hy with h2 | h2
      · subst h2
        rw [show logPrivs ((y, SMsg.roomKeysMsg a1 b1 c1 p) :: tl) = p :: logPrivs tl from by
          simp [logPrivs, List.filterMap_cons, privOf]] at hnd
        exact absurd (mem_logPrivs h1) (List.nodup_cons.1 hnd).1
      · refine ih ?_ h1 h2
        cases hp : privOf hd.2 with
        | none =>
          rw [show logPrivs (hd :: tl) = logPrivs tl from by
            simp [logPrivs, List.filterMap_cons, hp]] at hnd
          exact hnd
        | some q =>
          rw [show logPrivs (hd :: tl) = q :: logPrivs tl from by
            simp [logPrivs, List.filterMap_cons, hp]] at hnd
          exact (List.nodup_cons.1 hnd).2

/-! Characterization of the join-room handler. -/

theorem addPart_key (room : Room) (sid : String) (ud : UserData) (now e0 : Nat) :
    (Room.addParticipant room sid ud now e0).1.encryptionKey = room.encryptionKey := rfl

theorem addPart_salt (room : Room) (sid : String) (ud : UserData) (now e0 : Nat) :
    (Room.addParticipant room sid ud now e0).1.salt = room.salt := rfl

theorem addPart_entropy (room : Room) (sid : String) (ud : UserData) (now e0 : Nat) :
    (Room.addParticipant room sid ud now e0).2 = e0 + 2 := rfl

theorem addPart_participants (room : Room) (sid : String) (ud : UserData) (now e0 : Nat) :
    (Room.addParticipant room sid ud now e0).1.participants =
      mapSet room.participants sid
        { id := sid, username := ud.username, isCreator := ud.isCreator,
          joinedAt := now, pubKey := e0, privKey := e0 + 1 } := rfl

theorem getParticipantKeyPair_addPart (room : Room) (sid : String) (ud : UserData)
    (now e0 : Nat) :
    Room.getParticipantKeyPair (Room.addParticipant room sid ud now e0).1 sid =
      some (e0, e0 + 1) := by
  rw [Room.getParticipantKeyPair, addPart_participants, mapGet_mapSet_self]
  rfl

theorem ensureRoom_existing {rooms : List (String × Room)} {rid : String} {room : Room}
    (now e : Nat) (h : mapGet rooms rid = some room) :
    ensureRoom rooms rid now e = (rooms, e) := by
  simp [ensureRoom, h]

theorem ensureRoom_create {rooms : List (String × Room)} {rid : String}
    (now e : Nat) (h : mapGet rooms rid = none) :
    ensureRoom rooms rid now e =
      (mapSet rooms rid
        { id := rid, participants := [], createdAt := now,
          encryptionKey := e, salt := e + 1 }, e + 2) := by
  simp [ensureRoom, h, Room.create, generateKey, generateSalt]

theorem handleJoinValid_existing {s : ServerState} {sid rid : String} {ud : UserData}
    {room : Room} (h : mapGet s.rooms rid = some room) :
    handleJoinValid s sid rid ud = joinResult s sid rid ud room s.entropy := by
  rw [handleJoinValid]
  simp only [ensureRoom_existing s.now s.entropy h, h, getParticipantKeyPair_addPart]
  rw [joinResult]
  simp [Room.getRoomKeys, addPart_key, addPart_salt, addPart_entropy]

theorem handleJoinValid_create {s : ServerState} {sid rid : String} {ud : UserData}
    (h : mapGet s.rooms rid = none) :
    handleJoinValid s sid rid ud = joinResult s sid rid ud
      { id := rid, participants := [], createdAt := s.now,
        encryptionKey := s.entropy, salt := s.entropy + 1 } (s.entropy + 2) := by
  rw [handleJoinValid]
  simp only [ensureRoom_create s.now s.entropy h, mapGet_mapSet_self,
    getParticipantKeyPair_addPart]
  rw [joinResult]
  simp [Room.getRoomKeys, addPart_key, addPart_salt, addPart_entropy, mapSet_mapSet_self]

/-! Preservation of the reachability invariant. -/

theorem nodup_keys_socketJoin {conns : List (String × List String)} (sid r : String)
    (h : (mapKeys conns).Nodup) : (mapKeys (socketJoin conns sid r)).Nodup := by
  rw [socketJoin]
  cases mapGet conns sid with
  | none => exact h
  | some rs =>
    by_cases hr : r ∈ rs
    · simpa [hr] using h
    · simpa [hr] using nodup_keys_mapSet sid (rs ++ [r]) h

theorem removePart_key (room : Room) (sid : String) :
    (Room.removeParticipant room sid).encryptionKey = room.encryptionKey := rfl

theorem removePart_salt (room : Room) (sid : String) :
    (Room.removeParticipant room sid).salt = room.salt := rfl

theorem removePart_participants (room : Room) (sid : String) :
    (Room.removeParticipant room sid).participants = mapDelete room.participants sid := rfl

theorem inv_now {s : ServerState} (h : Inv s) (n : Nat) : Inv { s with now := n } :=
  ⟨h.roomsNodup, h.usersNodup, h.connsNodup, h.partNodup, h.partId, h.roomKeyLt,
    h.privLt, h.privNodup, h.delivered⟩

theorem inv_emit {s : ServerState} (h : Inv s) (targets : List String) (m : SMsg)
    (hm : privOf m = none) : Inv (emitRelay s targets m) := by
  have hlog : logPrivs (emitRelay s targets m).outLog = logPrivs s.outLog := by
    rw [emitRelay]
    rw [show ({ s with outLog := s.outLog ++ targets.map (fun r => (r, m)) } :
      ServerState).outLog = s.outLog ++ targets.map (fun r => (r, m)) from rfl]
    rw [logPrivs_append, logPrivs_map_none targets m hm, List.append_nil]
  refine ⟨h.roomsNodup, h.usersNodup, h.connsNodup, h.partNodup, h.partId, h.roomKeyLt,
    ?_, ?_, ?_⟩
  · rw [hlog]; exact h.privLt
  · rw [hlog]; exact h.privNodup
  · intro rid room hr pid p hp
    exact List.mem_append_left _ (h.delivered rid room hr pid p hp)

theorem logPrivs_joinResult (s : ServerState) (sid rid : String) (ud : UserData)
    (room : Room) (e0 : Nat) :
    logPrivs (joinResult s sid rid ud room e0).outLog = logPrivs s.outLog ++ [e0 + 1] := by
  rw [joinResult]
  simp [logPrivs_append, logPrivs_map_none, logPrivs, List.filterMap_cons, privOf]

theorem inv_joinResult {s : ServerState} (sid rid : String) (ud : UserData)
    {room : Room} {e0 : Nat} (hInv : Inv s)
    (he0 : s.entropy ≤ e0)
    (hkey : room.encryptionKey < e0 + 2)
    (hdel : ∀ pid p, (pid, p) ∈ room.participants →
      (pid, SMsg.roomKeysMsg room.encryptionKey room.salt p.pubKey p.privKey) ∈ s.outLog)
    (hpn : (mapKeys room.participants).Nodup)
    (hpi : ∀ pid p, (pid, p) ∈ room.participants → p.id = pid) :
    Inv (joinResult s sid rid ud room e0) := by
  have hlog : logPrivs (joinResult s sid rid ud room e0).outLog =
      logPrivs s.outLog ++ [e0 + 1] := logPrivs_joinResult s sid rid ud room e0
  have hout : (joinResult s sid rid ud room e0).outLog = s.outLog ++
      ([(sid, SMsg.roomKeysMsg room.encryptionKey room.salt e0 (e0 + 1))]
        ++ (broadcastTo (socketJoin s.conns sid rid) rid sid).map
            (fun r => (r, SMsg.userJoinedMsg sid ud))
        ++ [(sid, SMsg.existingParticipantsMsg
              (((Room.addParticipant room sid ud s.now e0).1.getParticipants).filter
                (fun p => p.id ≠ sid)))]) := rfl
  have hrooms : (joinResult s sid rid ud room e0).rooms =
      mapSet s.rooms rid (Room.addParticipant room sid ud s.now e0).1 := rfl
  have hent : (joinResult s sid rid ud room e0).entropy = e0 + 2 := rfl
  refine ⟨?_, ?_, ?_, ?_, ?_, ?_, ?_, ?_, ?_⟩
  · exact nodup_keys_mapSet rid _ hInv.roomsNodup
  · exact nodup_keys_mapSet sid _ hInv.usersNodup
  · exact nodup_keys_socketJoin sid rid hInv.connsNodup
  · intro rid1 room1 hr
    rw [hrooms] at hr
    rcases mem_mapSet hInv.roomsNodup hr with ⟨rfl, rfl⟩ | ⟨hmem, _⟩
    · rw [addPart_participants]
      exact nodup_keys_mapSet sid _ hpn
    · exact hInv.partNodup rid1 room1 hmem
  · intro rid1 room1 hr pid p hp
    rw [hrooms] at hr
    rcases mem_mapSet hInv.roomsNodup hr with ⟨rfl, rfl⟩ | ⟨hmem, _⟩
    · rw [addPart_participants] at hp
      rcases mem_mapSet hpn hp with ⟨rfl, rfl⟩ | ⟨hmem1, _⟩
      · rfl
      · exact hpi pid p hmem1
    · exact hInv.partId rid1 room1 hmem pid p hp
  · intro rid1 room1 hr
    rw [hrooms] at hr
    rw [hent]
    rcases mem_mapSet hInv.roomsNodup hr with ⟨rfl, rfl⟩ | ⟨hmem, _⟩
    · rw [addPart_key]
      exact hkey
    · exact lt_of_lt_of_le (hInv.roomKeyLt rid1 room1 hmem) (by omega)
  · intro p hp
    rw [hlog] at hp
    rw [hent]
    rcases List.mem_append.1 hp with hp1 | hp1
    · exact lt_of_lt_of_le (hInv.privLt p hp1) (by omega)
    · simp at hp1
      omega
  · rw [hlog]
    refine List.nodup_append.2 ⟨hInv.privNodup, List.nodup_singleton _, ?_⟩
    intro a ha hb
    simp at hb
    subst hb
    have := hInv.privLt _ ha
    omega
  · intro rid1 room1 hr pid p hp
    rw [hrooms] at hr
    rw [hout]
    rcases mem_mapSet hInv.roomsNodup hr with ⟨rfl, rfl⟩ | ⟨hmem, _⟩
    · rw [addPart_participants] at hp
      rw [addPart_key, addPart_salt]
      rcases mem_mapSet hpn hp with ⟨rfl, rfl⟩ | ⟨hmem1, _⟩
      · exact List.mem_append_right _ (by simp)
      · exact List.mem_append_left _ (hdel pid p hmem1)
    · exact List.mem_append_left _ (hInv.delivered rid1 room1 hmem pid p hp)

theorem inv_appendNoPriv {s : ServerState} (hInv : Inv s) (extra : List (String × SMsg))
    (hx : logPrivs extra = []) : Inv { s with outLog := s.outLog ++ extra } := by
  have hlog : logPrivs (s.outLog ++ extra) = logPrivs s.outLog := by
    rw [logPrivs_append, hx, List.append_nil]
  refine ⟨hInv.roomsNodup, hInv.usersNodup, hInv.connsNodup, hInv.partNodup, hInv.partId,
    hInv.roomKeyLt, ?_, ?_, ?_⟩
  · intro p hp
    have hp2 : p ∈ logPrivs s.outLog := by rw [← hlog]; exact hp
    exact hInv.privLt p hp2
  · show (logPrivs (s.outLog ++ extra)).Nodup
    rw [hlog]
    exact hInv.privNodup
  · intro rid room hr pid p hp
    exact List.mem_append_left _ (hInv.delivered rid room hr pid p hp)

theorem handleJoin_noId (s : ServerState) (sid : String) (ud : UserData) :
    handleJoin s sid none ud =
      { s with outLog := s.outLog ++ [(sid, SMsg.errorMsg "Room ID is required")] } := by
  rw [handleJoin.eq_def]
  simp [roomIdFalsy]

theorem handleJoin_emptyId (s : ServerState) (sid : String) (ud : UserData) :
    handleJoin s sid (some "") ud =
      { s with outLog := s.outLog ++ [(sid, SMsg.errorMsg "Room ID is required")] } := by
  rw [handleJoin.eq_def]
  simp [roomIdFalsy]

theorem handleJoin_valid (s : ServerState) (sid rid : String) (ud : UserData)
    (h : rid ≠ "") : handleJoin s sid (some rid) ud = handleJoinValid s sid rid ud := by
  rw [handleJoin.eq_def]
  simp [roomIdFalsy, h]

theorem inv_handleJoinValid {s : ServerState} (sid rid : String) (ud : UserData)
    (hInv : Inv s) : Inv (handleJoinValid s sid rid ud) := by
  cases h : mapGet s.rooms rid with
  | some room =>
    rw [handleJoinValid_existing h]
    exact inv_joinResult sid rid ud hInv (le_refl _)
      (lt_of_lt_of_le (hInv.roomKeyLt rid room (mapGet_eq_some_mem h)) (by omega))
      (hInv.delivered rid room (mapGet_eq_some_mem h))
      (hInv.partNodup rid room (mapGet_eq_some_mem h))
      (hInv.partId rid room (mapGet_eq_some_mem h))
  | none =>
    rw [handleJoinValid_create h]
    exact inv_joinResult sid rid ud hInv (by omega)
      (by show s.entropy < s.entropy + 2 + 2; omega)
      (fun pid p hp => absurd hp (List.not_mem_nil _))
      (by simp [mapKeys])
      (fun pid p hp => absurd hp (List.not_mem_nil _))

theorem inv_handleJoin {s : ServerState} (sid : String) (rid? : Option String)
    (ud : UserData) (hInv : Inv s) : Inv (handleJoin s sid rid? ud) := by
  cases rid? with
  | none =>
    rw [handleJoin_noId]
    exact inv_appendNoPriv hInv _ rfl
  | some rid =>
    by_cases hrid : rid = ""
    · subst hrid
      rw [handleJoin_emptyId]
      exact inv_appendNoPriv hInv _ rfl
    · rw [handleJoin_valid s sid rid ud hrid]
      exact inv_handleJoinValid sid rid ud hInv

theorem handleDisconnect_noUser {s : ServerState} {sid : String}
    (hu : mapGet s.users sid = none) :
    handleDisconnect s sid =
      { s with users := mapDelete s.users sid, conns := mapDelete s.conns sid } := by
  rw [handleDisconnect]
  simp [hu]

theorem handleDisconnect_noRoom {s : ServerState} {sid : String} {u : UserRec}
    (hu : mapGet s.users sid = some u) (hr : mapGet s.rooms u.roomId = none) :
    handleDisconnect s sid =
      { s with users := mapDelete s.users sid, conns := mapDelete s.conns sid } := by
  rw [handleDisconnect]
  simp [hu, hr]

theorem handleDisconnect_empty {s : ServerState} {sid : String} {u : UserRec} {room : Room}
    (hu : mapGet s.users sid = some u) (hr : mapGet s.rooms u.roomId = some room)
    (he : Room.isEmpty (Room.removeParticipant room sid) = true) :
    handleDisconnect s sid =
      { s with rooms := mapDelete s.rooms u.roomId,
               users := mapDelete s.users sid,
               conns := mapDelete s.conns sid,
               outLog := s.outLog ++ (broadcastTo s.conns u.roomId sid).map
                 (fun r => (r, SMsg.userLeftMsg sid)) } := by
  rw [handleDisconnect]
  simp [hu, hr, he]

theorem handleDisconnect_keep {s : ServerState} {sid : String} {u : UserRec} {room : Room}
    (hu : mapGet s.users sid = some u) (hr : mapGet s.rooms u.roomId = some room)
    (he : Room.isEmpty (Room.removeParticipant room sid) = false) :
    handleDisconnect s sid =
      { s with rooms := mapSet s.rooms u.roomId (Room.removeParticipant room sid),
               users := mapDelete s.users sid,
               conns := mapDelete s.conns sid,
               outLog := s.outLog ++ (broadcastTo s.conns u.roomId sid).map
                 (fun r => (r, SMsg.userLeftMsg sid)) } := by
  rw [handleDisconnect]
  simp [hu, hr, he]

theorem logPrivs_userLeft (rs : List String) (sid : String) :
    logPrivs (rs.map (fun r => (r, SMsg.userLeftMsg sid))) = [] :=
  logPrivs_map_none rs _ rfl

theorem inv_handleDisconnect {s : ServerState} (sid : String) (hInv : Inv s) :
    Inv (handleDisconnect s sid) := by
  cases hu : mapGet s.users sid with
  | none =>
    rw [handleDisconnect_noUser hu]
    exact ⟨hInv.roomsNodup, nodup_keys_mapDelete sid hInv.usersNodup,
      nodup_keys_mapDelete sid hInv.connsNodup, hInv.partNodup, hInv.partId,
      hInv.roomKeyLt, hInv.privLt, hInv.privNodup, hInv.delivered⟩
  | some u =>
    cases hr : mapGet s.rooms u.roomId with
    | none =>
      rw [handleDisconnect_noRoom hu hr]
      exact ⟨hInv.roomsNodup, nodup_keys_mapDelete sid hInv.usersNodup,
        nodup_keys_mapDelete sid hInv.connsNodup, hInv.partNodup, hInv.partId,
        hInv.roomKeyLt, hInv.privLt, hInv.privNodup, hInv.delivered⟩
    | some room =>
      have hlog : logPrivs (s.outLog ++ (broadcastTo s.conns u.roomId sid).map
          (fun r => (r, SMsg.userLeftMsg sid))) = logPrivs s.outLog := by
        rw [logPrivs_append, logPrivs_userLeft, List.append_nil]
      cases he : Room.isEmpty (Room.removeParticipant room sid) with
      | true =>
        rw [handleDisconnect_empty hu hr he]
        refine ⟨nodup_keys_mapDelete _ hInv.roomsNodup, nodup_keys_mapDelete sid hInv.usersNodup,
          nodup_keys_mapDelete sid hInv.connsNodup, ?_, ?_, ?_, ?_, ?_, ?_⟩
        · exact fun rid room1 h1 => hInv.partNodup rid room1 (mem_mapDelete h1)
        · exact fun rid room1 h1 => hInv.partId rid room1 (mem_mapDelete h1)
        · exact fun rid room1 h1 => hInv.roomKeyLt rid room1 (mem_mapDelete h1)
        · intro p hp
          have hp2 : p ∈ logPrivs s.outLog := by rw [← hlog]; exact hp
          exact hInv.privLt p hp2
        · show (logPrivs (s.outLog ++ (broadcastTo s.conns u.roomId sid).map
            (fun r => (r, SMsg.userLeftMsg sid)))).Nodup
          rw [hlog]
          exact hInv.privNodup
        · intro rid room1 h1 pid p hp
          exact List.mem_append_left _
            (hInv.delivered rid room1 (mem_mapDelete h1) pid p hp)
      | false =>
        rw [handleDisconnect_keep hu hr he]
        refine ⟨nodup_keys_mapSet _ _ hInv.roomsNodup, nodup_keys_mapDelete sid hInv.usersNodup,
          nodup_keys_mapDelete sid hInv.connsNodup, ?_, ?_, ?_, ?_, ?_, ?_⟩
        · intro rid room1 h1
          rcases mem_mapSet hInv.roomsNodup h1 with ⟨rfl, rfl⟩ | ⟨hmem, _⟩
          · rw [removePart_participants]
            exact nodup_keys_mapDelete sid
              (hInv.partNodup u.roomId room (mapGet_eq_some_mem hr))
          · exact hInv.partNodup rid room1 hmem
        · intro rid room1 h1 pid p hp
          rcases mem_mapSet hInv.roomsNodup h1 with ⟨rfl, rfl⟩ | ⟨hmem, _⟩
          · rw [removePart_participants] at hp
            exact hInv.partId u.roomId room (mapGet_eq_some_mem hr) pid p (mem_mapDelete hp)
          · exact hInv.partId rid room1 hmem pid p hp
        · intro rid room1 h1
          rcases mem_mapSet hInv.roomsNodup h1 with ⟨rfl, rfl⟩ | ⟨hmem, _⟩
          · rw [removePart_key]
            exact hInv.roomKeyLt u.roomId room (mapGet_eq_some_mem hr)
          · exact hInv.roomKeyLt rid room1 hmem
        · intro p hp
          have hp2 : p ∈ logPrivs s.outLog := by rw [← hlog]; exact hp
          exact hInv.privLt p hp2
        · show (logPrivs (s.outLog ++ (broadcastTo s.conns u.roomId sid).map
            (fun r => (r, SMsg.userLeftMsg sid)))).Nodup
          rw [hlog]
          exact hInv.privNodup
        · intro rid room1 h1 pid p hp
          rcases mem_mapSet hInv.roomsNodup h1 with ⟨rfl, rfl⟩ | ⟨hmem, _⟩
          · rw [removePart_participants] at hp
            rw [removePart_key, removePart_salt]
            exact List.mem_append_left _
              (hInv.delivered u.roomId room (mapGet_eq_some_mem hr) pid p (mem_mapDelete hp))
          · exact List.mem_append_left _ (hInv.delivered rid room1 hmem pid p hp)

theorem inv_handleConnect {s : ServerState} (sid : String) (hInv : Inv s) :
    Inv (handleConnect s sid) := by
  rw [handleConnect]
  cases hc : mapGet s.conns sid with
  | some rs => exact hInv
  | none =>
    refine ⟨hInv.roomsNodup, hInv.usersNodup, ?_, hInv.partNodup, hInv.partId,
      hInv.roomKeyLt, hInv.privLt, hInv.privNodup, hInv.delivered⟩
    show (mapKeys (s.conns ++ [(sid, [sid])])).Nodup
    rw [mapKeys_append]
    refine List.nodup_append.2 ⟨hInv.connsNodup, List.nodup_singleton _, ?_⟩
    intro a ha hb
    rw [show mapKeys [(sid, [sid])] = [sid] from rfl] at hb
    simp at hb
    subst hb
    exact mapGet_eq_none_not_mem hc ha

theorem create_key (id : String) (now e : Nat) :
    (Room.create id now e).1.encryptionKey = e := rfl

theorem create_salt (id : String) (now e : Nat) :
    (Room.create id now e).1.salt = e + 1 := rfl

theorem create_participants (id : String) (now e : Nat) :
    (Room.create id now e).1.participants = [] := rfl

theorem handleCreateRoomApi_eq (s : ServerState) :
    handleCreateRoomApi s =
      { s with
          rooms := mapSet s.rooms ("uuid-" ++ toString s.entropy)
                     { id := "uuid-" ++ toString s.entropy, participants := [],
                       createdAt := s.now, encryptionKey := s.entropy + 1,
                       salt := s.entropy + 2 },
          entropy := s.entropy + 3 } := by
  rw [handleCreateRoomApi]
  simp [uuidv4, Room.create, generateKey, generateSalt]

theorem inv_handleCreateRoomApi {s : ServerState} (hInv : Inv s) :
    Inv (handleCreateRoomApi s) := by
  rw [handleCreateRoomApi_eq]
  refine ⟨nodup_keys_mapSet _ _ hInv.roomsNodup, hInv.usersNodup, hInv.connsNodup,
    ?_, ?_, ?_, ?_, hInv.privNodup, ?_⟩
  · intro rid room hr
    rcases mem_mapSet hInv.roomsNodup hr with ⟨rfl, rfl⟩ | ⟨hmem, _⟩
    · simp [mapKeys]
    · exact hInv.partNodup rid room hmem
  · intro rid room hr pid p hp
    rcases mem_mapSet hInv.roomsNodup hr with ⟨rfl, rfl⟩ | ⟨hmem, _⟩
    · exact absurd hp (List.not_mem_nil _)
    · exact hInv.partId rid room hmem pid p hp
  · intro rid room hr
    rcases mem_mapSet hInv.roomsNodup hr with ⟨rfl, rfl⟩ | ⟨hmem, _⟩
    · show s.entropy + 1 < s.entropy + 3
      omega
    · exact lt_of_lt_of_le (hInv.roomKeyLt rid room hmem)
        (by show s.entropy ≤ s.entropy + 3; omega)
  · intro p hp
    exact lt_of_lt_of_le (hInv.privLt p hp)
      (by show s.entropy ≤ s.entropy + 3; omega)
  · intro rid room hr pid p hp
    rcases mem_mapSet hInv.roomsNodup hr with ⟨rfl, rfl⟩ | ⟨hmem, _⟩
    · exact absurd hp (List.not_mem_nil _)
    · exact hInv.delivered rid room hmem pid p hp

theorem inv_handleChat {s : ServerState} (sid : String) (a b c : Nat) (ts : Option Nat)
    (hInv : Inv s) : Inv (handleChat s sid a b c ts) := by
  rw [handleChat]
  split
  · exact hInv
  · split
    · exact hInv
    · exact inv_emit hInv _ _ rfl

theorem inv_handleMediaState {s : ServerState} (sid : String) (au vi : Option Bool)
    (hInv : Inv s) : Inv (handleMediaState s sid au vi) := by
  rw [handleMediaState]
  split
  · exact hInv
  · exact inv_emit hInv _ _ rfl

theorem inv_handleScreenShareStart {s : ServerState} (sid : String) (hInv : Inv s) :
    Inv (handleScreenShareStart s sid) := by
  rw [handleScreenShareStart]
  split
  · exact hInv
  · exact inv_emit hInv _ _ rfl

theorem inv_handleScreenShareStop {s : ServerState} (sid : String) (hInv : Inv s) :
    Inv (handleScreenShareStop s sid) := by
  rw [handleScreenShareStop]
  split
  · exact hInv
  · exact inv_emit hInv _ _ rfl

theorem inv_handle {s : ServerState} (e : Ev) (hInv : Inv s) : Inv (handle s e) := by
  cases e with
  | connect sid => exact inv_handleConnect sid hInv
  | joinRoom sid rid ud => exact inv_handleJoin sid rid ud hInv
  | offer sid t p => exact inv_emit hInv _ _ rfl
  | answer sid t p => exact inv_emit hInv _ _ rfl
  | iceCandidate sid t p => exact inv_emit hInv _ _ rfl
  | secureOffer sid t a b c => exact inv_emit hInv _ _ rfl
  | secureAnswer sid t a b c => exact inv_emit hInv _ _ rfl
  | secureIceCandidate sid t a b c => exact inv_emit hInv _ _ rfl
  | chatMessage sid a b c ts => exact inv_handleChat sid a b c ts hInv
  | mediaStateChange sid au vi => exact inv_handleMediaState sid au vi hInv
  | screenShareStart sid => exact inv_handleScreenShareStart sid hInv
  | screenShareStop sid => exact inv_handleScreenShareStop sid hInv
  | remoteControlVideo sid t en => exact hInv
  | remoteControlAudio sid t en => exact hInv
  | disconnect sid => exact inv_handleDisconnect sid hInv
  | createRoomApi => exact inv_handleCreateRoomApi hInv
  | createRoomVueApi => exact inv_handleCreateRoomApi hInv

theorem inv_step {s : ServerState} (e : Ev) (hInv : Inv s) : Inv (step s e) :=
  inv_now (inv_handle e hInv) _

theorem inv_initState : Inv initState := by
  refine ⟨?_, ?_, ?_, ?_, ?_, ?_, ?_, ?_, ?_⟩ <;>
    simp [initState, mapKeys, logPrivs]

theorem inv_runFrom {s : ServerState} (evs : List Ev) (hInv : Inv s) :
    Inv (runFrom s evs) := by
  induction evs generalizing s with
  | nil => exact hInv
  | cons e tl ih => exact ih (inv_step e hInv)

theorem inv_run (evs : List Ev) : Inv (run evs) :=
  inv_runFrom evs inv_initState

/-! Monotonicity of the entropy counter: random values are never reused. -/

theorem entropy_le_handle (s : ServerState) (e : Ev) : s.entropy ≤ (handle s e).entropy := by
  cases e with
  | connect sid =>
    show s.entropy ≤ (handleConnect s sid).entropy
    rw [handleConnect]
    split <;> exact Nat.le_refl _
  | joinRoom sid rid ud =>
    show s.entropy ≤ (handleJoin s sid rid ud).entropy
    cases rid with
    | none =>
      rw [handleJoin_noId]
    | some r =>
      by_cases hr : r = ""
      · subst hr
        rw [handleJoin_emptyId]
      · rw [handleJoin_valid s sid r ud hr]
        cases h : mapGet s.rooms r with
        | some room =>
          rw [handleJoinValid_existing h]
          show s.entropy ≤ s.entropy + 2
          omega
        | none =>
          rw [handleJoinValid_create h]
          show s.entropy ≤ s.entropy + 2 + 2
          omega
  | offer sid t p => exact Nat.le_refl _
  | answer sid t p => exact Nat.le_refl _
  | iceCandidate sid t p => exact Nat.le_refl _
  | secureOffer sid t a b c => exact Nat.le_refl _
  | secureAnswer sid t a b c => exact Nat.le_refl _
  | secureIceCandidate sid t a b c => exact Nat.le_refl _
  | chatMessage sid a b c ts =>
    show s.entropy ≤ (handleChat s sid a b c ts).entropy
    rw [handleChat]
    split
    · exact Nat.le_refl _
    · split <;> exact Nat.le_refl _
  | mediaStateChange sid au vi =>
    show s.entropy ≤ (handleMediaState s sid au vi).entropy
    rw [handleMediaState]
    split <;> exact Nat.le_refl _
  | screenShareStart sid =>
    show s.entropy ≤ (handleScreenShareStart s sid).entropy
    rw [handleScreenShareStart]
    split <;> exact Nat.le_refl _
  | screenShareStop sid =>
    show s.entropy ≤ (handleScreenShareStop s sid).entropy
    rw [handleScreenShareStop]
    split <;> exact Nat.le_refl _
  | remoteControlVideo sid t en => exact Nat.le_refl _
  | remoteControlAudio sid t en => exact Nat.le_refl _
  | disconnect sid => exact Nat.le_refl _
  | createRoomApi =>
    show s.entropy ≤ (handleCreateRoomApi s).entropy
    rw [handleCreateRoomApi_eq]
    show s.entropy ≤ s.entropy + 3
    omega
  | createRoomVueApi =>
    show s.entropy ≤ (handleCreateRoomApi s).entropy
    rw [handleCreateRoomApi_eq]
    show s.entropy ≤ s.entropy + 3
    omega

theorem entropy_le_step (s : ServerState) (e : Ev) : s.entropy ≤ (step s e).entropy :=
  entropy_le_handle s e

theorem entropy_le_runFrom (s : ServerState) (evs : List Ev) :
    s.entropy ≤ (runFrom s evs).entropy := by
  induction evs generalizing s with
  | nil => exact Nat.le_refl _
  | cons e tl ih => exact le_trans (entropy_le_step s e) (ih (step s e))

/-! The registry keeps only nonempty rooms as long as no HTTP room-creation
endpoint is exercised. -/

theorem roomsNonempty_handle {s : ServerState} (hInv : Inv s) (hne : RoomsNonempty s)
    (e : Ev) (he : nonHttp e) : RoomsNonempty (handle s e) := by
  cases e with
  | connect sid =>
    show RoomsNonempty (handleConnect s sid)
    rw [handleConnect]
    split
    · exact hne
    · exact hne
  | joinRoom sid rid ud =>
    show RoomsNonempty (handleJoin s sid rid ud)
    cases rid with
    | none =>
      rw [handleJoin_noId]
      exact hne
    | some r =>
      by_cases hr : r = ""
      · subst hr
        rw [handleJoin_emptyId]
        exact hne
      · rw [handleJoin_valid s sid r ud hr]
        cases h : mapGet s.rooms r with
        | some room =>
          rw [handleJoinValid_existing h]
          intro rid1 room1 h1
          rcases mem_mapSet hInv.roomsNodup h1 with ⟨rfl, rfl⟩ | ⟨hmem, _⟩
          · rw [addPart_participants]
            exact mapSet_ne_nil _ _ _
          · exact hne rid1 room1 hmem
        | none =>
          rw [handleJoinValid_create h]
          intro rid1 room1 h1
          rcases mem_mapSet hInv.roomsNodup h1 with ⟨rfl, rfl⟩ | ⟨hmem, _⟩
          · rw [addPart_participants]
            exact mapSet_ne_nil _ _ _
          · exact hne rid1 room1 hmem
  | offer sid t p => exact hne
  | answer sid t p => exact hne
  | iceCandidate sid t p => exact hne
  | secureOffer sid t a b c => exact hne
  | secureAnswer sid t a b c => exact hne
  | secureIceCandidate sid t a b c => exact hne
  | chatMessage sid a b c ts =>
    show RoomsNonempty (handleChat s sid a b c ts)
    rw [handleChat]
    split
    · exact hne
    · split
      · exact hne
      · exact hne
  | mediaStateChange sid au vi =>
    show RoomsNonempty (handleMediaState s sid au vi)
    rw [handleMediaState]
    split
    · exact hne
    · exact hne
  | screenShareStart sid =>
    show RoomsNonempty (handleScreenShareStart s sid)
    rw [handleScreenShareStart]
    split
    · exact hne
    · exact hne
  | screenShareStop sid =>
    show RoomsNonempty (handleScreenShareStop s sid)
    rw [handleScreenShareStop]
    split
    · exact hne
    · exact hne
  | remoteControlVideo sid t en => exact hne
  | remoteControlAudio sid t en => exact hne
  | disconnect sid =>
    show RoomsNonempty (handleDisconnect s sid)
    cases hu : mapGet s.users sid with
    | none =>
      rw [handleDisconnect_noUser hu]
      exact hne
    | some u =>
      cases hr : mapGet s.rooms u.roomId with
      | none =>
        rw [handleDisconnect_noRoom hu hr]
        exact hne
      | some room =>
        cases hemp : Room.isEmpty (Room.removeParticipant room sid) with
        | true =>
          rw [handleDisconnect_empty hu hr hemp]
          exact fun rid1 room1 h1 => hne rid1 room1 (mem_mapDelete h1)
        | false =>
          rw [handleDisconnect_keep hu hr hemp]
          intro rid1 room1 h1
          rcases mem_mapSet hInv.roomsNodup h1 with ⟨rfl, rfl⟩ | ⟨hmem, _⟩
          · intro heq
            rw [Room.isEmpty, heq] at hemp
            simp at hemp
          · exact hne rid1 room1 hmem
  | createRoomApi => exact absurd rfl he.1
  | createRoomVueApi => exact absurd rfl he.2

theorem roomsNonempty_runFrom {s : ServerState} (evs : List Ev) (hInv : Inv s)
    (hne : RoomsNonempty s) (hh : ∀ e ∈ evs, nonHttp e) :
    RoomsNonempty (runFrom s evs) := by
  induction evs generalizing s with
  | nil => exact hne
  | cons e tl ih =>
    exact ih (inv_step e hInv)
      (roomsNonempty_handle hInv hne e (hh e (List.mem_cons_self _ _)))
      (fun e1 h1 => hh e1 (List.mem_cons_of_mem _ h1))

/-! Behaviour of the disconnect handler when the last participant leaves. -/

theorem keys_singleton {α : Type} {l : List (String × α)} {a : String}
    (h : mapKeys l = [a]) : ∃ v, l = [(a, v)] := by
  cases l with
  | nil => exact absurd h (by simp [mapKeys])
  | cons hd tl =>
    obtain ⟨k0, v0⟩ := hd
    rw [mapKeys_cons] at h
    injection h with h1 h2
    have : tl = [] := by
      cases tl with
      | nil => rfl
      | cons hd2 tl2 => exact absurd h2 (by rw [mapKeys_cons]; simp)
    subst this
    have h1s : k0 = a := h1
    subst h1s
    exact ⟨v0, rfl⟩

theorem disconnect_last {s : ServerState} {R A : String} {room : Room} {u : UserRec}
    (hroom : mapGet s.rooms R = some room) (hone : mapKeys room.participants = [A])
    (hu : mapGet s.users A = some u) (hR : u.roomId = R) :
    (step s (Ev.disconnect A)).rooms = mapDelete s.rooms R ∧
      mapGet (step s (Ev.disconnect A)).rooms R = none := by
  obtain ⟨p, hp⟩ := keys_singleton hone
  have hdel : mapDelete room.participants A = [] := by
    rw [hp]
    simp [mapDelete]
  have hemp : Room.isEmpty (Room.removeParticipant room A) = true := by
    rw [Room.isEmpty, removePart_participants, hdel]
    rfl
  have hr2 : mapGet s.rooms u.roomId = some room := by rw [hR]; exact hroom
  have hd := handleDisconnect_empty hu hr2 hemp
  have hrooms : (step s (Ev.disconnect A)).rooms = (handleDisconnect s A).rooms := rfl
  rw [hrooms, hd]
  have : mapDelete s.rooms u.roomId = mapDelete s.rooms R := by rw [hR]
  constructor
  · exact this
  · show mapGet (mapDelete s.rooms u.roomId) R = none
    rw [this]
    exact mapGet_mapDelete_self s.rooms R

theorem join_create_key {s : ServerState} (sid rid : String) (ud : UserData)
    (h : mapGet s.rooms rid = none) (hrid : rid ≠ "") :
    mapGet (step s (Ev.joinRoom sid (some rid) ud)).rooms rid =
      some (Room.addParticipant
        { id := rid, participants := [], createdAt := s.now,
          encryptionKey := s.entropy, salt := s.entropy + 1 } sid ud s.now
        (s.entropy + 2)).1 := by
  have hs : (step s (Ev.joinRoom sid (some rid) ud)).rooms =
      (handleJoin s sid (some rid) ud).rooms := rfl
  rw [hs, handleJoin_valid s sid rid ud hrid, handleJoinValid_create h]
  show mapGet (mapSet s.rooms rid _) rid = _
  rw [mapGet_mapSet_self]

theorem joinResult_outLog_no_error {s : ServerState} {sid rid : String} {ud : UserData}
    {room : Room} {e0 : Nat} {x msg : String}
    (h : (x, SMsg.errorMsg msg) ∈ (joinResult s sid rid ud room e0).outLog) :
    (x, SMsg.errorMsg msg) ∈ s.outLog := by
  rcases List.mem_append.1 h with h1 | h1
  · exact h1
  · exfalso
    rcases List.mem_append.1 h1 with h2 | h2
    · rcases List.mem_append.1 h2 with h3 | h3
      · simp at h3
      · rcases List.mem_map.1 h3 with ⟨r1, _, heq⟩
        simp at heq
    · simp at h2

/-! Claim theorems. -/

/-- C1: for every reachable execution, no outbound server message delivered
to a session X carries another session Y's private key: a private key value
occurring in any captured room-keys message identifies its unique recipient,
and room-keys is the only message kind that carries a private key at all
(by construction of the outbound message type, mirroring server.js where
privateKey appears only in the room-keys emit to the joining socket). -/
theorem private_key_only_to_owner (evs : List Ev) (x y : String)
    (a b c a1 b1 c1 p : Nat)
    (hx : (x, SMsg.roomKeysMsg a b c p) ∈ (run evs).outLog)
    (hy : (y, SMsg.roomKeysMsg a1 b1 c1 p) ∈ (run evs).outLog) : x = y :=
  priv_unique (inv_run evs).privNodup hx hy

theorem private_key_only_to_owner_witness :
    ("A", SMsg.roomKeysMsg 0 1 2 3) ∈
      (run [Ev.connect "A", Ev.joinRoom "A" (some "ab") ⟨none, none⟩]).outLog ∧
    "A" = "A" :=
  ⟨by decide,
    private_key_only_to_owner [Ev.connect "A", Ev.joinRoom "A" (some "ab") ⟨none, none⟩]
      "A" "A" 0 1 2 0 1 2 3 (by decide) (by decide)⟩

/-- C2 counterexample: a join-room with the malformed two-character room id
"a" is accepted by the server: the Room is created and tracked, and the
outbound log of the run contains no error event at all (it is exactly the
room-keys and existing-participants messages to the joiner). -/
theorem malformed_room_id_accepted :
    (mapGet (run [Ev.connect "A",
        Ev.joinRoom "A" (some "a") ⟨some "alice", none⟩]).rooms "a").isSome = true ∧
    (run [Ev.connect "A", Ev.joinRoom "A" (some "a") ⟨some "alice", none⟩]).outLog =
      [("A", SMsg.roomKeysMsg 0 1 2 3), ("A", SMsg.existingParticipantsMsg [])] :=
  ⟨by decide, by decide⟩

/-- C2 amended: the join-room handler rejects (error event, no Room created)
exactly the requests whose room id is missing or the empty string (the JS
falsiness check); every other id, including ones violating the 3-32
character pattern such as "a", is accepted: the Room is created or reused
and no error event is emitted.  The 3-32 pattern is enforced only in the
client page, never by the server. -/
theorem join_rejects_only_falsy_ids (s : ServerState) (sid : String) (ud : UserData) :
    ((step s (Ev.joinRoom sid none ud)).rooms = s.rooms ∧
      (step s (Ev.joinRoom sid none ud)).outLog =
        s.outLog ++ [(sid, SMsg.errorMsg "Room ID is required")]) ∧
    ((step s (Ev.joinRoom sid (some "") ud)).rooms = s.rooms ∧
      (step s (Ev.joinRoom sid (some "") ud)).outLog =
        s.outLog ++ [(sid, SMsg.errorMsg "Room ID is required")]) ∧
    (∀ r : String, r ≠ "" →
      (mapGet (step s (Ev.joinRoom sid (some r) ud)).rooms r).isSome = true ∧
      (∀ x msg, (x, SMsg.errorMsg msg) ∈ (step s (Ev.joinRoom sid (some r) ud)).outLog →
        (x, SMsg.errorMsg msg) ∈ s.outLog)) := by
  refine ⟨⟨?_, ?_⟩, ⟨?_, ?_⟩, ?_⟩
  · show (handleJoin s sid none ud).rooms = s.rooms
    rw [handleJoin_noId]
  · show (handleJoin s sid none ud).outLog = _
    rw [handleJoin_noId]
  · show (handleJoin s sid (some "") ud).rooms = s.rooms
    rw [handleJoin_emptyId]
  · show (handleJoin s sid (some "") ud).outLog = _
    rw [handleJoin_emptyId]
  · intro r hr
    constructor
    · show (mapGet (handleJoin s sid (some r) ud).rooms r).isSome = true
      rw [handleJoin_valid s sid r ud hr]
      cases h : mapGet s.rooms r with
      | some room =>
        rw [handleJoinValid_existing h]
        show (mapGet (mapSet s.rooms r _) r).isSome = true
        rw [mapGet_mapSet_self]
        rfl
      | none =>
        rw [handleJoinValid_create h]
        show (mapGet (mapSet s.rooms r _) r).isSome = true
        rw [mapGet_mapSet_self]
        rfl
    · intro x msg hmem
      have hmem2 : (x, SMsg.errorMsg msg) ∈ (handleJoin s sid (some r) ud).outLog := hmem
      rw [handleJoin_valid s sid r ud hr] at hmem2
      cases h : mapGet s.rooms r with
      | some room =>
        rw [handleJoinValid_existing h] at hmem2
        exact joinResult_outLog_no_error hmem2
      | none =>
        rw [handleJoinValid_create h] at hmem2
        exact joinResult_outLog_no_error hmem2

theorem join_rejects_only_falsy_ids_witness :
    ("a" : String) ≠ "" ∧
    (mapGet (step initState (Ev.joinRoom "A" (some "a") ⟨some "alice", none⟩)).rooms
      "a").isSome = true :=
  ⟨by decide,
    ((join_rejects_only_falsy_ids initState "A" ⟨some "alice", none⟩).2.2 "a" (by decide)).1⟩

/-- C3 counterexample: after one POST /api/rooms request the registry
tracks a Room with zero participants, refuting the claimed equivalence
between being tracked and having at least one participant. -/
theorem http_room_created_empty :
    mapGet (run [Ev.createRoomApi]).rooms "uuid-0" =
      some { id := "uuid-0", participants := [], createdAt := 0,
             encryptionKey := 1, salt := 2 } := by
  decide

/-- C3 amended: restricted to socket events (no HTTP room-creation
endpoint), every tracked Room has at least one participant at every
observation point; and whatever events occurred, immediately after the
disconnect that removes the last participant of a room, a lookup of that
room id returns not-found.  The HTTP endpoints POST /api/rooms and
POST /api/create-room break the only-if direction by inserting
zero-participant rooms. -/
theorem room_tracked_iff_nonempty_socket_core :
    (∀ evs : List Ev, (∀ e ∈ evs, nonHttp e) →
      ∀ rid room, (rid, room) ∈ (run evs).rooms → room.participants ≠ []) ∧
    (∀ (evs : List Ev) (R A : String) (room : Room) (u : UserRec),
      mapGet (run evs).rooms R = some room →
      mapKeys room.participants = [A] →
      mapGet (run evs).users A = some u → u.roomId = R →
      mapGet (step (run evs) (Ev.disconnect A)).rooms R = none) := by
  constructor
  · intro evs hh rid room hmem
    exact roomsNonempty_runFrom evs inv_initState
      (fun rid1 room1 h1 => absurd h1 (List.not_mem_nil _)) hh rid room hmem
  · intro evs R A room u hroom hone hu hR
    exact (disconnect_last hroom hone hu hR).2

theorem room_tracked_iff_nonempty_socket_core_witness :
    ({ id := "aaa", participants := [("A", { id := "A", username := none, isCreator := none, joinedAt := 1, pubKey := 2, privKey := 3 })], createdAt := 1, encryptionKey := 0, salt := 1 } : Room).participants ≠ [] ∧
    mapGet (step (run [Ev.connect "A", Ev.joinRoom "A" (some "aaa") ⟨none, none⟩])
      (Ev.disconnect "A")).rooms "aaa" = none :=
  ⟨room_tracked_iff_nonempty_socket_core.1
      [Ev.connect "A", Ev.joinRoom "A" (some "aaa") ⟨none, none⟩] (by decide) "aaa"
      { id := "aaa", participants := [("A", { id := "A", username := none, isCreator := none, joinedAt := 1, pubKey := 2, privKey := 3 })], createdAt := 1, encryptionKey := 0, salt := 1 } (by decide),
   room_tracked_iff_nonempty_socket_core.2
      [Ev.connect "A", Ev.joinRoom "A" (some "aaa") ⟨none, none⟩] "aaa" "A"
      { id := "aaa", participants := [("A", { id := "A", username := none, isCreator := none, joinedAt := 1, pubKey := 2, privKey := 3 })], createdAt := 1, encryptionKey := 0, salt := 1 }
      { roomId := "aaa", userData := ⟨none, none⟩ }
      (by decide) (by decide) (by decide) rfl⟩

/-- C4: the server never computes a creator flag: the participant record
stores exactly the isCreator field the client supplied in userData.  The
first joiner of a fresh room with the Vue client's payload (isCreator false)
is not marked creator, and a later, non-first joiner claiming isCreator true
is stored as creator, contradicting the claim that the first joining session
is marked creator exactly once. -/
theorem creator_flag_is_client_supplied :
    ((mapGet (run [Ev.connect "s1",
        Ev.joinRoom "s1" (some "room-1") ⟨some "alice", some false⟩]).rooms "room-1").bind
      (fun room => mapGet room.participants "s1")).map (fun p => p.isCreator) =
      some (some false) ∧
    ((mapGet (run [Ev.connect "s2", Ev.joinRoom "s2" (some "room-2") ⟨some "bob", some false⟩,
        Ev.connect "s3", Ev.joinRoom "s3" (some "room-2") ⟨some "eve", some true⟩]).rooms
        "room-2").bind
      (fun room => mapGet room.participants "s3")).map (fun p => p.isCreator) =
      some (some true) :=
  ⟨by decide, by decide⟩

/-- C5: the server registers no handler for remote-control-video or
remote-control-audio, so processing either event leaves the entire server
state unchanged (apart from the clock tick) and forwards nothing to the
named target, contradicting the claimed target-addressed forwarding. -/
theorem remote_control_not_forwarded (s : ServerState) (sid t : String) (en : Bool) :
    step s (Ev.remoteControlVideo sid t en) = { s with now := s.now + 1 } ∧
    step s (Ev.remoteControlAudio sid t en) = { s with now := s.now + 1 } :=
  ⟨rfl, rfl⟩

/-- C6: any two current participants of a tracked room were each delivered a
room-keys message carrying exactly the room's one encryption key and salt
(minted once in the Room constructor and never mutated), hence the symmetric
key delivered to participant A and to participant B are identical. -/
theorem room_key_identical_for_participants (evs : List Ev) (rid : String) (room : Room)
    (hroom : mapGet (run evs).rooms rid = some room)
    (a b : String) (pa pb : Participant)
    (ha : mapGet room.participants a = some pa)
    (hb : mapGet room.participants b = some pb) :
    (a, SMsg.roomKeysMsg room.encryptionKey room.salt pa.pubKey pa.privKey) ∈
      (run evs).outLog ∧
    (b, SMsg.roomKeysMsg room.encryptionKey room.salt pb.pubKey pb.privKey) ∈
      (run evs).outLog := by
  have hmem := mapGet_eq_some_mem hroom
  have hia := (inv_run evs).partId rid room hmem a pa (mapGet_eq_some_mem ha)
  have hib := (inv_run evs).partId rid room hmem b pb (mapGet_eq_some_mem hb)
  constructor
  · have := (inv_run evs).delivered rid room hmem a pa (mapGet_eq_some_mem ha)
    exact this
  · have := (inv_run evs).delivered rid room hmem b pb (mapGet_eq_some_mem hb)
    exact this

theorem room_key_identical_for_participants_witness :
    ("A", SMsg.roomKeysMsg 0 1 2 3) ∈
      (run [Ev.connect "A", Ev.joinRoom "A" (some "ab") ⟨none, none⟩,
        Ev.connect "B", Ev.joinRoom "B" (some "ab") ⟨none, none⟩]).outLog ∧
    ("B", SMsg.roomKeysMsg 0 1 4 5) ∈
      (run [Ev.connect "A", Ev.joinRoom "A" (some "ab") ⟨none, none⟩,
        Ev.connect "B", Ev.joinRoom "B" (some "ab") ⟨none, none⟩]).outLog :=
  room_key_identical_for_participants
    [Ev.connect "A", Ev.joinRoom "A" (some "ab") ⟨none, none⟩,
      Ev.connect "B", Ev.joinRoom "B" (some "ab") ⟨none, none⟩]
    "ab"
    { id := "ab", participants := [("A", { id := "A", username := none, isCreator := none, joinedAt := 1, pubKey := 2, privKey := 3 }), ("B", { id := "B", username := none, isCreator := none, joinedAt := 3, pubKey := 4, privKey := 5 })], createdAt := 1, encryptionKey := 0, salt := 1 }
    (by decide) "A" "B"
    { id := "A", username := none, isCreator := none, joinedAt := 1, pubKey := 2, privKey := 3 }
    { id := "B", username := none, isCreator := none, joinedAt := 3, pubKey := 4, privKey := 5 }
    (by decide) (by decide)

/-- C7: when the disconnect of the only participant of a room is processed,
the room is removed from the registry in that same step; and any later join
that re-creates a room under the same id mints an encryption key that
differs from the destroyed room's key (the entropy counter only grows, and
every tracked room's key lies below it). -/
theorem last_leave_deletes_and_rekeys (evs : List Ev) (R A : String) (room : Room)
    (u : UserRec)
    (hroom : mapGet (run evs).rooms R = some room)
    (hone : mapKeys room.participants = [A])
    (hu : mapGet (run evs).users A = some u)
    (hR : u.roomId = R) :
    mapGet (step (run evs) (Ev.disconnect A)).rooms R = none ∧
    ∀ (evs2 : List Ev) (C : String) (ud : UserData) (room2 : Room),
      mapGet (runFrom (step (run evs) (Ev.disconnect A)) evs2).rooms R = none →
      mapGet (step (runFrom (step (run evs) (Ev.disconnect A)) evs2)
        (Ev.joinRoom C (some R) ud)).rooms R = some room2 →
      room2.encryptionKey ≠ room.encryptionKey := by
  refine ⟨(disconnect_last hroom hone hu hR).2, ?_⟩
  intro evs2 C ud room2 hnone hsome
  by_cases hRe : R = ""
  · subst hRe
    have hsome2 : mapGet (handleJoin (runFrom (step (run evs) (Ev.disconnect A)) evs2)
        C (some "") ud).rooms "" = some room2 := hsome
    rw [handleJoin_emptyId] at hsome2
    have hsome3 : (none : Option Room) = some room2 := by
      rw [← hnone]
      exact hsome2
    exact absurd hsome3 (by simp)
  · have hjc := join_create_key C R ud hnone hRe
    rw [hjc] at hsome
    injection hsome with h2
    have hkey2 : room2.encryptionKey =
        (runFrom (step (run evs) (Ev.disconnect A)) evs2).entropy := by
      rw [← h2]
      rfl
    have hold : room.encryptionKey < (run evs).entropy :=
      (inv_run evs).roomKeyLt R room (mapGet_eq_some_mem hroom)
    have hmono1 : (run evs).entropy ≤ (step (run evs) (Ev.disconnect A)).entropy :=
      entropy_le_step _ _
    have hmono2 : (step (run evs) (Ev.disconnect A)).entropy ≤
        (runFrom (step (run evs) (Ev.disconnect A)) evs2).entropy :=
      entropy_le_runFrom _ _
    rw [hkey2]
    omega

theorem last_leave_deletes_and_rekeys_witness :
    mapGet (step (run [Ev.connect "A", Ev.joinRoom "A" (some "r-1") ⟨none, none⟩])
      (Ev.disconnect "A")).rooms "r-1" = none ∧
    ({ id := "r-1", participants := [("C", { id := "C", username := none, isCreator := none, joinedAt := 4, pubKey := 6, privKey := 7 })], createdAt := 4, encryptionKey := 4, salt := 5 } : Room).encryptionKey ≠
    ({ id := "r-1", participants := [("A", { id := "A", username := none, isCreator := none, joinedAt := 1, pubKey := 2, privKey := 3 })], createdAt := 1, encryptionKey := 0, salt := 1 } : Room).encryptionKey := by
  have h := last_leave_deletes_and_rekeys
    [Ev.connect "A", Ev.joinRoom "A" (some "r-1") ⟨none, none⟩] "r-1" "A"
    { id := "r-1", participants := [("A", { id := "A", username := none, isCreator := none, joinedAt := 1, pubKey := 2, privKey := 3 })], createdAt := 1, encryptionKey := 0, salt := 1 }
    { roomId := "r-1", userData := ⟨none, none⟩ }
    (by decide) (by decide) (by decide) rfl
  exact ⟨h.1, h.2 [Ev.connect "C"] "C" ⟨none, none⟩
    { id := "r-1", participants := [("C", { id := "C", username := none, isCreator := none, joinedAt := 4, pubKey := 6, privKey := 7 })], createdAt := 4, encryptionKey := 4, salt := 5 }
    (by decide) (by decide)⟩

/-- C8 counterexample: a second join-room from a session already in a room
is processed, not rejected: after joining room "aaa" and then room "bbb",
session A has a participant record in both rooms at once; and a repeated
join of the same room re-runs the handler, re-emitting a room-keys message
with a freshly minted key pair instead of being a no-op. -/
theorem duplicate_join_processed :
    ((mapGet (run [Ev.connect "A", Ev.joinRoom "A" (some "aaa") ⟨none, none⟩,
        Ev.joinRoom "A" (some "bbb") ⟨none, none⟩]).rooms "aaa").bind
      (fun r => mapGet r.participants "A")).isSome = true ∧
    ((mapGet (run [Ev.connect "A", Ev.joinRoom "A" (some "aaa") ⟨none, none⟩,
        Ev.joinRoom "A" (some "bbb") ⟨none, none⟩]).rooms "bbb").bind
      (fun r => mapGet r.participants "A")).isSome = true ∧
    (run [Ev.connect "A", Ev.joinRoom "A" (some "aaa") ⟨none, none⟩,
        Ev.joinRoom "A" (some "aaa") ⟨none, none⟩]).outLog =
      [("A", SMsg.roomKeysMsg 0 1 2 3), ("A", SMsg.existingParticipantsMsg []),
       ("A", SMsg.roomKeysMsg 0 1 4 5), ("A", SMsg.existingParticipantsMsg [])] :=
  ⟨by decide, by decide, by decide⟩

/-- C8 amended: the registry never holds more than one participant record
per session within one room (the participant container has JS Map semantics,
so a repeated join overwrites in place), but duplicate joins are not
rejected and a session that joins a second room keeps its stale record in
the first, so a session is not confined to one room at a time. -/
theorem one_record_per_session_per_room (evs : List Ev) (rid : String) (room : Room)
    (h : (rid, room) ∈ (run evs).rooms) : (mapKeys room.participants).Nodup :=
  (inv_run evs).partNodup rid room h

theorem one_record_per_session_per_room_witness :
    (mapKeys ([("A", { id := "A", username := none, isCreator := none, joinedAt := 1, pubKey := 2, privKey := 3 })] : List (String × Participant))).Nodup :=
  one_record_per_session_per_room
    [Ev.connect "A", Ev.joinRoom "A" (some "ab") ⟨none, none⟩] "ab"
    { id := "ab", participants := [("A", { id := "A", username := none, isCreator := none, joinedAt := 1, pubKey := 2, privKey := 3 })], createdAt := 1, encryptionKey := 0, salt := 1 }
    (by decide)

/-- C9 counterexample: a session that never joined any room sends an offer;
the server emits no error to the sender at all and instead relays the offer
to the target, so the run's complete outbound log is the single relayed
offer message. -/
theorem pre_join_offer_relayed_without_error :
    (run [Ev.connect "A", Ev.connect "B", Ev.offer "A" "B" 7]).outLog =
      [("B", SMsg.offerMsg "A" 7)] := by
  decide

/-- C9 amended: the signaling handlers perform no join-state check at all:
offer, answer, ice-candidate and their secure variants are relayed to the
socket.io room named by the target id exactly the same way whether or not
the sender has joined a room, no error event is ever emitted for them, and
the connection registry (and all room state) is left unchanged. -/
theorem signaling_relayed_regardless_of_state (s : ServerState) (sid t : String)
    (p a b c : Nat) :
    (step s (Ev.offer sid t p)).outLog =
      s.outLog ++ (broadcastTo s.conns t sid).map (fun r => (r, SMsg.offerMsg sid p)) ∧
    (step s (Ev.answer sid t p)).outLog =
      s.outLog ++ (broadcastTo s.conns t sid).map (fun r => (r, SMsg.answerMsg sid p)) ∧
    (step s (Ev.iceCandidate sid t p)).outLog =
      s.outLog ++ (broadcastTo s.conns t sid).map
        (fun r => (r, SMsg.iceCandidateMsg sid p)) ∧
    (step s (Ev.secureOffer sid t a b c)).outLog =
      s.outLog ++ (broadcastTo s.conns t sid).map
        (fun r => (r, SMsg.secureOfferMsg sid a b c)) ∧
    (step s (Ev.secureAnswer sid t a b c)).outLog =
      s.outLog ++ (broadcastTo s.conns t sid).map
        (fun r => (r, SMsg.secureAnswerMsg sid a b c)) ∧
    (step s (Ev.secureIceCandidate sid t a b c)).outLog =
      s.outLog ++ (broadcastTo s.conns t sid).map
        (fun r => (r, SMsg.secureIceMsg sid a b c)) ∧
    (step s (Ev.offer sid t p)).conns = s.conns ∧
    (step s (Ev.offer sid t p)).rooms = s.rooms ∧
    (step s (Ev.offer sid t p)).users = s.users :=
  ⟨rfl, rfl, rfl, rfl, rfl, rfl, rfl, rfl, rfl⟩

/-- C10: a screen-share-start or screen-share-stop event from a session that
is present in the users map is broadcast, carrying only the sender's session
id, to every other connected session in the socket.io room the users map
records for the sender; when the sender is absent from the users map the
event is dropped with no output, and in either case rooms and users are
untouched. -/
theorem screen_share_relayed_to_room (s : ServerState) (sid : String) :
    ((step s (Ev.screenShareStart sid)).outLog = s.outLog ++
      (match mapGet s.users sid with
       | some u => (broadcastTo s.conns u.roomId sid).map
           (fun r => (r, SMsg.screenShareStartMsg sid))
       | none => [])) ∧
    ((step s (Ev.screenShareStop sid)).outLog = s.outLog ++
      (match mapGet s.users sid with
       | some u => (broadcastTo s.conns u.roomId sid).map
           (fun r => (r, SMsg.screenShareStopMsg sid))
       | none => [])) ∧
    (step s (Ev.screenShareStart sid)).rooms = s.rooms ∧
    (step s (Ev.screenShareStart sid)).users = s.users ∧
    (step s (Ev.screenShareStop sid)).rooms = s.rooms ∧
    (step s (Ev.screenShareStop sid)).users = s.users := by
  refine ⟨?_, ?_, ?_, ?_, ?_, ?_⟩
  · show (handleScreenShareStart s sid).outLog = _
    rw [handleScreenShareStart]
    cases hu : mapGet s.users sid with
    | none => simp
    | some u => rfl
  · show (handleScreenShareStop s sid).outLog = _
    rw [handleScreenShareStop]
    cases hu : mapGet s.users sid with
    | none => simp
    | some u => rfl
  · show (handleScreenShareStart s sid).rooms = s.rooms
    rw [handleScreenShareStart]
    cases hu : mapGet s.users sid with
    | none => rfl
    | some u => rfl
  · show (handleScreenShareStart s sid).users = s.users
    rw [handleScreenShareStart]
    cases hu : mapGet s.users sid with
    | none => rfl
    | some u => rfl
  · show (handleScreenShareStop s sid).rooms = s.rooms
    rw [handleScreenShareStop]
    cases hu : mapGet s.users sid with
    | none => rfl
    | some u => rfl
  · show (handleScreenShareStop s sid).users = s.users
    rw [handleScreenShareStop]
    cases hu : mapGet s.users sid with
    | none => rfl
    | some u => rfl

end QuicRtc
